import Mathlib

/-!
Verification of the reference resolution, search, and diff engine of the
"regimento" reader (src/static/app.js and the earlier variant in
src/unnamed/part_000).  JavaScript strings are modelled as `List Char`
(or Lean `String` where only whole-string comparison occurs), JS numbers
used as array indices/counters as `Nat`/`Int`, and the `Uint16Array`
LCS table with an explicit `% 65536` on stores.  DOM-only side effects
(scrolling, highlight `<mark>` wrapping, CSS class toggles that carry no
state read back by the algorithms) are omitted; every state-bearing
computation is translated.
-/

namespace Regimento

/-! ## JS primitives: whitespace, line terminators -/

/-- The character class matched by the JS regexp `\s` (WhiteSpace ∪
LineTerminator): TAB LF VT FF CR SP NBSP OGHAM, U+2000–U+200A, LS, PS,
NNBSP, MMSP, IDEOGRAPHIC SPACE, BOM. -/
def isJsWs (c : Char) : Bool :=
  c.toNat = 9 || c.toNat = 10 || c.toNat = 11 || c.toNat = 12 || c.toNat = 13 ||
  c.toNat = 32 || c.toNat = 160 || c.toNat = 5760 ||
  (8192 ≤ c.toNat && c.toNat ≤ 8202) ||
  c.toNat = 8232 || c.toNat = 8233 || c.toNat = 8239 || c.toNat = 8287 ||
  c.toNat = 12288 || c.toNat = 65279

/-- JS LineTerminator characters (not matched by `.` in a regexp without the
`s` flag): LF, CR, LS, PS. -/
def isLineTerm (c : Char) : Bool :=
  c.toNat = 10 || c.toNat = 13 || c.toNat = 8232 || c.toNat = 8233

/-! ## Version diff engine (`wordDiff`, app.js lines 1406-1433) -/

/-- A whitespace-delimited token of a text. -/
abbrev Tok := List Char

/-- `text.split(/\s+/).filter(Boolean)`: split on whitespace characters and
drop the empty pieces (JS produces one empty piece per boundary run and a
leading empty piece for leading whitespace; `filter(Boolean)` removes them,
which coincides with splitting on every whitespace character and keeping the
non-empty pieces). -/
def wsTokens (s : List Char) : List Tok :=
  (s.splitOnP isJsWs).filter (fun t => !t.isEmpty)

/-- Entry kind of the edit script: unchanged / inserted / deleted token. -/
inductive DiffType where
  | eq
  | ins
  | del
deriving DecidableEq, Repr

/-- One entry `{type, text}` of the edit script. -/
structure DiffEntry where
  type : DiffType
  text : Tok
deriving DecidableEq, Repr

def DiffType.isEq : DiffType → Bool
  | .eq => true
  | _ => false

def DiffType.isIns : DiffType → Bool
  | .ins => true
  | _ => false

def DiffType.isDel : DiffType → Bool
  | .del => true
  | _ => false

/-- The LCS length table `dp` of `wordDiff`, with fuel to make the recursion
structural.  `dp` is stored in a `Uint16Array`, so the only arithmetic store
(`dp[i-1][j-1] + 1`) is reduced `% 65536`; `Math.max` of two already-stored
values needs no reduction. -/
def dpFuel (a b : List Tok) : Nat → Nat → Nat → Nat
  | 0, _, _ => 0
  | _ + 1, 0, _ => 0
  | _ + 1, _ + 1, 0 => 0
  | f + 1, i + 1, j + 1 =>
    if a.getD i [] = b.getD j [] then (dpFuel a b f i j + 1) % 65536
    else max (dpFuel a b f i (j + 1)) (dpFuel a b f (i + 1) j)

/-- `dp[i][j]` of `wordDiff` (fuel instantiated sufficiently). -/
def dp (a b : List Tok) (i j : Nat) : Nat := dpFuel a b (i + j) i j

/-- The backtrack loop of `wordDiff`, producing the edit script for the
prefixes `a[0..i)`, `b[0..j)` in forward order (the JS loop pushes entries
walking backwards and reverses at the end).  Branches mirror the source:
equal tokens first, then insertion when `i === 0 || dp[i][j-1] >= dp[i-1][j]`,
else deletion. -/
def backtrack (a b : List Tok) : Nat → Nat → Nat → List DiffEntry
  | 0, _, _ => []
  | f + 1, i, j =>
    if i = 0 ∧ j = 0 then []
    else if 0 < i ∧ 0 < j ∧ a.getD (i - 1) [] = b.getD (j - 1) [] then
      backtrack a b f (i - 1) (j - 1) ++ [⟨.eq, a.getD (i - 1) []⟩]
    else if 0 < j ∧ (i = 0 ∨ dp a b (i - 1) j ≤ dp a b i (j - 1)) then
      backtrack a b f i (j - 1) ++ [⟨.ins, b.getD (j - 1) []⟩]
    else
      backtrack a b f (i - 1) j ++ [⟨.del, a.getD (i - 1) []⟩]

/-- `wordDiff(oldText, newText)`: tokenize both texts by whitespace and
backtrack through the LCS table from `(m, n)`. -/
def wordDiff (oldText newText : List Char) : List DiffEntry :=
  let a := wsTokens oldText
  let b := wsTokens newText
  backtrack a b (a.length + b.length) a.length b.length

/-- Tokens of the script entries that came from the old text (`eq` and `del`). -/
def oldProj (l : List DiffEntry) : List Tok :=
  (l.filter (fun e => !e.type.isIns)).map DiffEntry.text

/-- Tokens of the script entries that came from the new text (`eq` and `ins`). -/
def newProj (l : List DiffEntry) : List Tok :=
  (l.filter (fun e => !e.type.isDel)).map DiffEntry.text

/-- The unchanged-token subsequence of an edit script. -/
def eqTokens (l : List DiffEntry) : List Tok :=
  (l.filter (fun e => e.type.isEq)).map DiffEntry.text

/-- Number of `eq` entries of an edit script. -/
def eqCount (l : List DiffEntry) : Nat :=
  (l.filter (fun e => e.type.isEq)).length

/-- Specification-side longest-common-subsequence length (classic recursion
from the front; used only in proofs, `wordDiff` computes its own table). -/
def lcsLen : List Tok → List Tok → Nat
  | [], _ => 0
  | _ :: _, [] => 0
  | x :: xs, y :: ys =>
    if x = y then lcsLen xs ys + 1
    else max (lcsLen (x :: xs) ys) (lcsLen xs (y :: ys))
termination_by u v => (u.length, v.length)

/-- True (unwrapped) LCS value of the prefixes `a[0..i)` and `b[0..j)`,
expressed through `lcsLen` on the reversed prefixes (the table of `wordDiff`
recurs on the last elements of the prefixes). -/
def lcsPre (a b : List Tok) (i j : Nat) : Nat :=
  lcsLen ((a.take i).reverse) ((b.take j).reverse)

/-! ## Document model -/

/-- A cross-reference `{law_prefix?, art, detail?}` as stored in the subject
index. -/
structure Ref where
  law_prefix : Option String
  art : String
  detail : Option String
deriving DecidableEq, Repr

/-- A card of the document view: a heading (`.card-titulo`, with its
`data-section`) or an article (`.card-artigo`, with `data-art`, optional
`data-law`, and its text content without / with footnote boxes).  The cards
container holds exactly these two kinds of cards. -/
inductive Card where
  | titulo (sectionId : String)
  | artigo (art : String) (law : Option String) (rawNoFoot rawFull : List Char)
deriving DecidableEq, Repr

def Card.isArtigo : Card → Bool
  | .artigo .. => true
  | _ => false

/-! ## Subject filter (`applySubjectFilter`, app.js lines 1242-1266) -/

/-- The key `(r.law_prefix || '') + ':' + r.art` used for precise matching. -/
def refKey (lawPrefix : Option String) (art : String) : String :=
  lawPrefix.getD "" ++ ":" ++ art

/-- The `refKeys` set built by `applySubjectFilter`. -/
def subjectRefKeys (refs : List Ref) : List String :=
  refs.map (fun r => refKey r.law_prefix r.art)

/-- Whether the filtering pass of `applySubjectFilter` marks a card
`filtered-out`: headings always, articles whose key is not among the active
refs. -/
def subjFilteredOut (refs : List Ref) : Card → Bool
  | .titulo _ => true
  | .artigo art law _ _ => !(subjectRefKeys refs).contains (refKey law art)

/-- Visibility of a card after the subject-filter stage at the top of
`doSearch`: when a subject pill is open with its filter enabled
(`activeSubject && subjectFilter`) the filter pass runs, otherwise every card
is un-filtered. -/
def cardVisibleAfterSubject (subj : Option (List Ref)) (c : Card) : Bool :=
  match subj with
  | some refs => !subjFilteredOut refs c
  | none => true

/-! ## Context-heading restoration (`showContextHeadings`, app.js 1078-1111) -/

/-- Hierarchy position of a heading's `data-section`, as the index into
`['norma', 'tit', 'cap', 'sec', 'subsec']` computed by the level-detection
chain (`subsec` is tested before `sec`, and `adt` counts as `tit`). -/
def headingLevel (sectionId : String) : Option Nat :=
  if sectionId.startsWith "norma" then some 0
  else if sectionId.startsWith "tit" || sectionId == "adt" then some 1
  else if sectionId.startsWith "cap" then some 2
  else if sectionId.startsWith "subsec" then some 4
  else if sectionId.startsWith "sec" then some 3
  else none

/-- One article's backward walk over its preceding cards (nearest first,
paired with their positions): restore the nearest heading of each hierarchy
level not yet found, mark all deeper levels found, stop at a `norma`-level
heading.  Returns the positions of the headings to un-filter. -/
def restoreWalk : List (Nat × Card) → List Nat → List Nat
  | [], _ => []
  | (pos, c) :: rest, found =>
    match c with
    | .titulo sec =>
      match headingLevel sec with
      | some l =>
        if found.contains l then
          if l = 0 then [] else restoreWalk rest found
        else
          if l = 0 then [pos]
          else pos :: restoreWalk rest (found ++ (List.range 5).drop l)
      | none => restoreWalk rest found
    | _ => restoreWalk rest found

/-- `showContextHeadings()`: for each visible article, un-filter the ancestor
headings its backward walk restores.  Cards carry their `filtered-out` flag. -/
def showContextHeadings (cs : List (Card × Bool)) : List (Card × Bool) :=
  let ind := cs.enum
  let toRestore :=
    (ind.map (fun pc =>
      if pc.2.1.isArtigo && !pc.2.2 then
        restoreWalk ((ind.take pc.1).reverse.map (fun qd => (qd.1, qd.2.1))) []
      else [])).flatten
  ind.map (fun pc => (pc.2.1, pc.2.2 && !toRestore.contains pc.1))

/-- `applySubjectFilter()` with an open pill: when the pill filter is on,
recompute every card's `filtered-out` flag from the active refs and restore
context headings; when off, clear all flags. -/
def applySubjectFilter (refs : List Ref) (filterOn : Bool) (cs : List (Card × Bool)) :
    List (Card × Bool) :=
  if filterOn then
    showContextHeadings (cs.map (fun cb => (cb.1, subjFilteredOut refs cb.1)))
  else
    cs.map (fun cb => (cb.1, false))

/-! ## Search engine (`doSearch` and helpers, app.js lines 290-433) -/

/-- ASCII letter, the class `[A-Za-z]` (also `[A-Z]` under the `i` flag). -/
def isAsciiAlpha (c : Char) : Bool :=
  ('a' ≤ c && c ≤ 'z') || ('A' ≤ c && c ≤ 'Z')

/-- The footnote-inclusion prefix regexp `/^r\s+(.+)$/i` applied to the term:
on a match, returns the captured rest (group 1).  `.` does not match line
terminators, and `\s+` backtracks just enough to leave a non-empty body. -/
def footMatch (s : List Char) : Option (List Char) :=
  match s with
  | [] => none
  | c :: t =>
    if c = 'r' ∨ c = 'R' then
      let w := t.takeWhile isJsWs
      let body := t.dropWhile isJsWs
      if w.isEmpty then none
      else if !body.isEmpty then
        if body.all (fun ch => !isLineTerm ch) then some body else none
      else
        match t.getLast? with
        | some lc => if 2 ≤ w.length && !isLineTerm lc then some [lc] else none
        | none => none
    else none

/-- The article quick-jump regexp `/^a([A-Z]{2,})?(\d+[-A-Za-z]*)$/i` applied
to the term: on a match, returns the upper-cased law prefix (group 1, when
present) and the article token (group 2, case preserved).  The optional
greedy letter group can only succeed on the whole maximal letter run after
the leading `a` (a digit must follow it), so a 1-letter run rejects the
input. -/
def artMatch (s : List Char) : Option (Option String × String) :=
  match s with
  | [] => none
  | c :: rest =>
    if c = 'a' ∨ c = 'A' then
      let pre := rest.takeWhile isAsciiAlpha
      let r1 := rest.dropWhile isAsciiAlpha
      if pre.length = 1 then none
      else
        let ds := r1.takeWhile Char.isDigit
        let tl := r1.dropWhile Char.isDigit
        if ds.isEmpty then none
        else if tl.all (fun ch => isAsciiAlpha ch || ch = '-') then
          some (if pre.isEmpty then none else some ⟨pre.map Char.toUpper⟩, ⟨r1⟩)
        else none
    else none

/-- JS `String.prototype.includes`: contiguous substring containment. -/
def strIncludes (hay needle : List Char) : Bool :=
  match hay with
  | [] => needle.isEmpty
  | _ :: t => needle.isPrefixOf hay || strIncludes t needle

/-- `getCardText(card, includeFootnotes)`: the card's text content, footnote
boxes removed unless included, normalized.  The normalization
`stripAccents(s.toLowerCase())` composes two JS built-ins (Unicode NFD
decomposition with combining-mark removal, and case folding); it is taken as
a parameter `norm` of the search embedding.  Only article cards are ever
text-matched by `doSearch`. -/
def getCardText (norm : List Char → List Char) : Card → Bool → List Char
  | .artigo _ _ rawNoFoot rawFull, inc => norm (if inc then rawFull else rawNoFoot)
  | .titulo _, _ => norm []

/-- `.card-artigo[data-art=num]:not([data-law])`: an unprefixed article with
the given number. -/
def Card.isUnprefArt (num : String) : Card → Bool
  | .artigo a l _ _ => a == num && l == none
  | _ => false

/-- `.card-artigo[data-art=num]`: any article with the given number. -/
def Card.hasArtNum (num : String) : Card → Bool
  | .artigo a _ _ _ => a == num
  | _ => false

/-- `.card-artigo[data-art=num][data-law=lp]`: an article of the given
annexed law with the given number. -/
def Card.isLawArt (num lp : String) : Card → Bool
  | .artigo a l _ _ => a == num && l == some lp
  | _ => false

/-- The quick-jump target resolution (`querySelector` returns the first
match in document order; with no law prefix, `:not([data-law])` is tried
first, then any `data-art` match). -/
def findArtCard (cards : List Card) (law : Option String) (num : String) :
    Option Card :=
  match law with
  | some lp => cards.find? (Card.isLawArt num lp)
  | none =>
    match cards.find? (Card.isUnprefArt num) with
    | some c => some c
    | none => cards.find? (Card.hasArtNum num)

/-- Outcome of one `doSearch` call: term empty (matches and highlights
cleared), article quick-jump (direct navigation, no text search), or a full
text search with its matched article cards (in document order). -/
inductive SearchOutcome where
  | cleared
  | quickJump (target : Option Card)
  | textSearch (matched : List Card)
deriving DecidableEq, Repr

/-- `doSearch(term)`: subject-filter recompute, empty-term early exit,
footnote prefix `r `, article quick-jump, then multi-term AND substring
matching over the currently visible article cards.  `subj` is
`some refs` when `activeSubject && subjectFilter`.  Highlighting, scrolling
and the search-nav counter are DOM-only and omitted; the match set
(`matchedCards`/`searchMatches`) is the returned list. -/
def doSearch (norm : List Char → List Char) (cards : List Card)
    (subj : Option (List Ref)) (term : List Char) : SearchOutcome :=
  if term.isEmpty then .cleared
  else
    let stripped :=
      match footMatch term with
      | some body => (true, body)
      | none => (false, term)
    let includeFootnotes := stripped.1
    let t := stripped.2
    match artMatch t with
    | some (pre, num) => .quickJump (findArtCard cards pre num)
    | none =>
      let terms := wsTokens (norm t)
      let visArts := cards.filter (fun c => c.isArtigo && cardVisibleAfterSubject subj c)
      .textSearch (visArts.filter (fun c =>
        terms.all (fun tk => strIncludes (getCardText norm c includeFootnotes) tk)))

/-! ## Marker store (app.js lines 14-23, 477-506) -/

/-- The fixed marker palette (names only; colors are presentation-level). -/
def MARKER_PALETTE : List String :=
  ["coral", "sky", "lime", "amber", "violet", "pink", "teal", "orange"]

/-- A user marker `{uid, colorIdx}`. -/
structure Marker where
  uid : String
  colorIdx : Nat
deriving DecidableEq, Repr

/-- `getNextColorIdx()`: the first palette slot not used by any existing
marker, else `markersList.length % MARKER_PALETTE.length`. -/
def getNextColorIdx (markersList : List Marker) : Nat :=
  match (List.range MARKER_PALETTE.length).find?
      (fun i => !markersList.any (fun m => m.colorIdx == i)) with
  | some i => i
  | none => markersList.length % MARKER_PALETTE.length

/-- `findMarker(uid)`. -/
def findMarker (markersList : List Marker) (uid : String) : Option Marker :=
  markersList.find? (fun m => m.uid == uid)

/-- `toggleMarker(uid)`: remove every marker of that uid if one exists, else
push a new marker with the next color. -/
def toggleMarker (markersList : List Marker) (uid : String) : List Marker :=
  match findMarker markersList uid with
  | some _ => markersList.filter (fun m => m.uid != uid)
  | none => markersList ++ [⟨uid, getNextColorIdx markersList⟩]

/-- `clearAllMarkers()`. -/
def clearAllMarkers (_markersList : List Marker) : List Marker := []

/-! ## Subject pill (app.js lines 1268-1310) -/

/-- The state slice read and written by the pill step/toggle handlers: the
open pill's ordered refs, cursor, filter flag, and the cards with their
`filtered-out` flags.  (An open pill; the handlers return early when
`activeSubject` is null.  `pillFilter` additionally re-runs an active search,
which recomputes card flags through `doSearch` but touches neither
`subjectIdx` nor `subjectFilter`; the slice models the no-active-search
case.) -/
structure PillApp where
  refs : List Ref
  idx : Nat
  filterOn : Bool
  cards : List (Card × Bool)
deriving Repr

/-- `navigateToSubjectRef(idx)`: commits the cursor (scrolling and pill text
update are DOM-only). -/
def navigateToSubjectRef (st : PillApp) (i : Nat) : PillApp :=
  { st with idx := i }

/-- The `pill-next` click handler: `subjectIdx = (subjectIdx + 1) % n`. -/
def pillNext (st : PillApp) : PillApp :=
  navigateToSubjectRef st ((st.idx + 1) % st.refs.length)

/-- The `pill-prev` click handler:
`subjectIdx = (subjectIdx - 1 + n) % n` in JS number arithmetic. -/
def pillPrev (st : PillApp) : PillApp :=
  navigateToSubjectRef st
    ((((st.idx : Int) - 1 + st.refs.length) % (st.refs.length : Int)).toNat)

/-- The `pillFilter` click handler: flip `subjectFilter` and recompute
visibility through `applySubjectFilter` (detail highlights are DOM-only). -/
def pillToggleFilter (st : PillApp) : PillApp :=
  { st with
    filterOn := !st.filterOn
    cards := applySubjectFilter st.refs (!st.filterOn) st.cards }

/-! ## Zoom persistence (`setZoom`, init; app.js lines 1324-1336, 1541-1544) -/

/-- A JS number as it occurs in the zoom computation: NaN, a signed infinity,
or a finite value (zoom arithmetic is exact on the modelled inputs, so
finite values are rationals). -/
inductive JsNum where
  | nan
  | inf (neg : Bool)
  | num (q : ℚ)
deriving DecidableEq, Repr

/-- `Math.min` (NaN-propagating). -/
def jsMin : JsNum → JsNum → JsNum
  | .nan, _ => .nan
  | _, .nan => .nan
  | .inf true, _ => .inf true
  | _, .inf true => .inf true
  | .inf false, y => y
  | x, .inf false => x
  | .num a, .num b => .num (min a b)

/-- `Math.max` (NaN-propagating). -/
def jsMax : JsNum → JsNum → JsNum
  | .nan, _ => .nan
  | _, .nan => .nan
  | .inf false, _ => .inf false
  | _, .inf false => .inf false
  | .inf true, y => y
  | x, .inf true => x
  | .num a, .num b => .num (max a b)

/-- Decimal digit run to a natural number. -/
def digitsVal (ds : List Char) : Nat :=
  ds.foldl (fun acc c => acc * 10 + (c.toNat - 48)) 0

/-- JS `parseFloat`: skip whitespace, optional sign, then the longest
`Infinity` / decimal-literal prefix (`digits [. digits] [exponent]` or
`. digits [exponent]`; a dangling exponent marker is ignored); anything else
is NaN. -/
def jsParseFloat (s : String) : JsNum :=
  let cs := s.data.dropWhile isJsWs
  let signed :=
    match cs with
    | '-' :: r => (true, r)
    | '+' :: r => (false, r)
    | _ => (false, cs)
  let neg := signed.1
  let cs1 := signed.2
  if "Infinity".data.isPrefixOf cs1 then .inf neg
  else
    let ip := cs1.takeWhile Char.isDigit
    let r2 := cs1.dropWhile Char.isDigit
    let fracPart :=
      match r2 with
      | '.' :: r => (r.takeWhile Char.isDigit, r.dropWhile Char.isDigit)
      | _ => ([], r2)
    let fp := fracPart.1
    let r3 := fracPart.2
    if ip.isEmpty && fp.isEmpty then .nan
    else
      let ex : Int :=
        match r3 with
        | 'e' :: '-' :: r => if (r.takeWhile Char.isDigit).isEmpty then 0
            else -(digitsVal (r.takeWhile Char.isDigit) : Int)
        | 'E' :: '-' :: r => if (r.takeWhile Char.isDigit).isEmpty then 0
            else -(digitsVal (r.takeWhile Char.isDigit) : Int)
        | 'e' :: '+' :: r => (digitsVal (r.takeWhile Char.isDigit) : Int)
        | 'E' :: '+' :: r => (digitsVal (r.takeWhile Char.isDigit) : Int)
        | 'e' :: r => (digitsVal (r.takeWhile Char.isDigit) : Int)
        | 'E' :: r => (digitsVal (r.takeWhile Char.isDigit) : Int)
        | _ => 0
      let mag : ℚ :=
        ((digitsVal ip : ℚ) + (digitsVal fp : ℚ) / ((10 : ℚ) ^ fp.length)) *
          (10 : ℚ) ^ ex
      .num (if neg then -mag else mag)

/-- The clamp committed by `setZoom(scale)`:
`zoomScale = Math.max(0.4, Math.min(2.5, scale))` (indicator text and the
persistence write are external). -/
def setZoomScale (scale : JsNum) : JsNum :=
  jsMax (.num 0.4) (jsMin (.num 2.5) scale)

/-- The startup zoom load: `const savedZoom = localStorage.getItem(...); if
(savedZoom) setZoom(parseFloat(savedZoom));` — a missing key (`none`) or an
empty (falsy) string leaves the current zoom in place. -/
def initZoom (saved : Option String) (zoomScale : JsNum) : JsNum :=
  match saved with
  | some s => if s ≠ "" then setZoomScale (jsParseFloat s) else zoomScale
  | none => zoomScale

/-! ## Reference compaction (`formatRefsCompact`, part_000 lines 616-681) -/

/-- JS `parseInt(s, 10)`: skip whitespace, optional sign, longest decimal
digit run; no digits means NaN (`none`). -/
def jsParseInt (s : String) : Option Int :=
  let cs := s.data.dropWhile isJsWs
  let signed :=
    match cs with
    | '-' :: r => (true, r)
    | '+' :: r => (false, r)
    | _ => (false, cs)
  let ds := signed.2.takeWhile Char.isDigit
  if ds.isEmpty then none
  else some (if signed.1 then -(digitsVal ds : Int) else (digitsVal ds : Int))

/-- JS truthiness of `r.detail` (a non-empty string). -/
def refHasDetail (r : Ref) : Bool :=
  match r.detail with
  | some d => !d.isEmpty
  | none => false

/-- The numeric sort key `parseInt(r.art, 10) || 0`. -/
def artKey (r : Ref) : Int := (jsParseInt r.art).getD 0

/-- Stable insertion of a ref into an already-sorted list (the element being
inserted precedes all later-listed refs of equal key, matching the
stability guaranteed for `Array.prototype.sort`). -/
def sortInsert (r : Ref) : List Ref → List Ref
  | [] => [r]
  | x :: xs => if artKey x < artKey r then x :: sortInsert r xs else r :: x :: xs

/-- `plain.sort((a, b) => na - nb)` as a stable sort by `artKey`. -/
def sortByArtKey (l : List Ref) : List Ref := l.foldr sortInsert []

/-- The inner scan of the compaction loop: starting from the current run end
`e`, consume refs while each parses to exactly `e + 1`; returns the final run
end and the unconsumed suffix. -/
def runEnd (e : Int) : List Ref → Int × List Ref
  | [] => (e, [])
  | r :: rs =>
    match jsParseInt r.art with
    | some nxt => if nxt = e + 1 then runEnd nxt rs else (e, r :: rs)
    | none => (e, r :: rs)

/-- The range-compaction loop over the sorted detail-less refs of one law
group (fuel = list length suffices: every iteration consumes at least one
ref).  A non-numeric article is emitted raw; a run of length ≥ 3 becomes
`arts. start – end`; a run of exactly 2 becomes two singles; otherwise one
single (numeric articles are re-rendered from their parsed value). -/
def compactLoop (lawPre : String) : Nat → List Ref → List String
  | 0, _ => []
  | _ + 1, [] => []
  | fuel + 1, r :: rs =>
    match jsParseInt r.art with
    | none => (lawPre ++ "art. " ++ r.art) :: compactLoop lawPre fuel rs
    | some st =>
      let er := runEnd st rs
      let en := er.1
      let rest := er.2
      if 2 ≤ en - st then
        (lawPre ++ "arts. " ++ toString st ++ " – " ++ toString en) ::
          compactLoop lawPre fuel rest
      else if en - st = 1 then
        (lawPre ++ "art. " ++ toString st) :: (lawPre ++ "art. " ++ toString en) ::
          compactLoop lawPre fuel rest
      else
        (lawPre ++ "art. " ++ toString st) :: compactLoop lawPre fuel rest

/-- Range compaction of one group's detail-less refs. -/
def compactPlain (lawPre : String) (l : List Ref) : List String :=
  compactLoop lawPre l.length l

/-- The law-prefix keys in first-appearance order (`byLaw` object key
order: the keys are non-index strings, so `Object.entries` iterates them in
insertion order). -/
def addKey (acc : List String) (k : String) : List String :=
  if acc.contains k then acc else acc ++ [k]

def groupKeys (refs : List Ref) : List String :=
  refs.foldl (fun acc r => addKey acc (r.law_prefix.getD "")) []

/-- The display part of one detailed ref. -/
def detailPart (lawPre : String) (r : Ref) : String :=
  lawPre ++ "art. " ++ r.art ++ ", " ++ r.detail.getD ""

/-- All display parts of `formatRefsCompact`: per law group (insertion
order), first the compacted detail-less refs (numerically sorted), then every
detailed ref individually. -/
def formatParts (refs : List Ref) : List String :=
  ((groupKeys refs).map (fun k =>
    let lawRefs := refs.filter (fun r => r.law_prefix.getD "" == k)
    let lawPre := if k == "" then "" else k ++ " "
    let plain := lawRefs.filter (fun r => !refHasDetail r)
    let detailed := lawRefs.filter refHasDetail
    compactPlain lawPre (sortByArtKey plain) ++ detailed.map (detailPart lawPre))).flatten

/-- `formatRefsCompact(refs)`. -/
def formatRefsCompact (refs : List Ref) : String :=
  String.intercalate "; " (formatParts refs)

/-- The law-group display marker of one ref (`lawPrefix ? lawPrefix + ' ' :
''` for the ref's own group). -/
def lawPreOf (r : Ref) : String :=
  if r.law_prefix.getD "" == "" then "" else r.law_prefix.getD "" ++ " "

/-! ## Concrete instances used by the compaction and marker claims -/

/-- The article run `10, 11, 12` (no details) of the compaction example. -/
def exRefsChain : List Ref :=
  [⟨none, "10", none⟩, ⟨none, "11", none⟩, ⟨none, "12", none⟩]

/-- The isolated article `14` of the compaction example. -/
def exRefTail : List Ref := [⟨none, "14", none⟩]

/-- The compaction example ref list with articles `[10, 11, 12, 14]`. -/
def exRefs : List Ref := exRefsChain ++ exRefTail

/-- Eight markers occupying all eight palette slots. -/
def markers8 : List Marker :=
  [⟨"u0", 0⟩, ⟨"u1", 1⟩, ⟨"u2", 2⟩, ⟨"u3", 3⟩,
   ⟨"u4", 4⟩, ⟨"u5", 5⟩, ⟨"u6", 6⟩, ⟨"u7", 7⟩]

/-- The marker-store invariant: at most one marker per uid. -/
def UidUnique (ms : List Marker) : Prop :=
  ∀ u, ms.countP (fun m => m.uid == u) ≤ 1

/-- A concrete open pill state over two refs. -/
def pillW : PillApp :=
  ⟨[⟨none, "5", none⟩, ⟨none, "9", none⟩], 0, true,
   [(Card.titulo "tit1", false), (Card.artigo "5" none [] [], false)]⟩

/-! # Theorems -/

/-! ## Marker store -/

/-- `List.find?` over `List.range n` returns the least index satisfying the
predicate. -/
theorem find?_range_eq_some (p : Nat → Bool) (n i : Nat) (hi : i < n)
    (hp : p i = true) (hlow : ∀ j, j < i → p j = false) :
    (List.range n).find? p = some i := by
  obtain ⟨k, rfl⟩ : ∃ k, n = i + 1 + k := ⟨n - (i + 1), by omega⟩
  have base : (List.range (i + 1)).find? p = some i := by
    rw [List.range_succ, List.find?_append]
    have h1 : (List.range i).find? p = none := by
      rw [List.find?_eq_none]
      intro x hx
      simp only [List.mem_range] at hx
      simp [hlow x hx]
    simp [h1, List.find?_cons_of_pos _ hp]
  induction k with
  | zero => simpa using base
  | succ k ih =>
    have hsplit : i + 1 + (k + 1) = (i + 1 + k) + 1 := by omega
    rw [hsplit, List.range_succ, List.find?_append, ih (by omega)]
    rfl

/-- C8: starting from at most one marker per uid, `toggleMarker` and
`clearAllMarkers` preserve the invariant; toggling a present uid removes its
marker (adding none), toggling an absent uid appends exactly one marker for
it. -/
theorem toggleMarker_uid_invariant (ms : List Marker) (uid : String)
    (hinv : UidUnique ms) :
    UidUnique (toggleMarker ms uid) ∧
    UidUnique (clearAllMarkers ms) ∧
    (findMarker ms uid ≠ none →
      toggleMarker ms uid = ms.filter (fun m => m.uid != uid) ∧
      (toggleMarker ms uid).countP (fun m => m.uid == uid) = 0) ∧
    (findMarker ms uid = none →
      toggleMarker ms uid = ms ++ [⟨uid, getNextColorIdx ms⟩] ∧
      (toggleMarker ms uid).countP (fun m => m.uid == uid) = 1) := by
  have hsing : ∀ u c, List.countP (fun m => m.uid == u)
      [(⟨uid, c⟩ : Marker)] = if uid = u then 1 else 0 := by
    intro u c
    rw [List.countP_cons, List.countP_nil]
    show 0 + (if (uid == u) = true then 1 else 0) = _
    by_cases hu : uid = u
    · simp [hu]
    · simp [hu]
  cases hfind : findMarker ms uid with
  | none =>
    have happ : toggleMarker ms uid = ms ++ [⟨uid, getNextColorIdx ms⟩] := by
      unfold toggleMarker
      rw [hfind]
    have hzero : ms.countP (fun m => m.uid == uid) = 0 := by
      rw [List.countP_eq_zero]
      exact List.find?_eq_none.mp hfind
    refine ⟨?_, fun u => by simp [clearAllMarkers], fun h => absurd rfl h,
      fun _ => ⟨happ, ?_⟩⟩
    · intro u
      rw [happ, List.countP_append, hsing]
      by_cases hu : uid = u
      · subst hu
        simp [hzero]
      · rw [if_neg hu]
        simpa using hinv u
    · rw [happ, List.countP_append, hzero, hsing]
      simp
  | some mk =>
    have hfil : toggleMarker ms uid = ms.filter (fun m => m.uid != uid) := by
      unfold toggleMarker
      rw [hfind]
    refine ⟨?_, fun u => by simp [clearAllMarkers], fun _ => ⟨hfil, ?_⟩,
      fun h => by exact absurd h (by simp)⟩
    · intro u
      rw [hfil]
      exact le_trans (List.Sublist.countP_le _ (List.filter_sublist ms)) (hinv u)
    · rw [hfil, List.countP_eq_zero]
      intro m hm
      have hb := (List.mem_filter.mp hm).2
      simp only [bne_iff_ne, ne_eq] at hb
      simp [hb]

/-- Witness for `toggleMarker_uid_invariant` at the empty marker list and
uid `u1`. -/
theorem toggleMarker_uid_invariant_witness :
    UidUnique [] ∧
    (UidUnique (toggleMarker [] "u1") ∧
     UidUnique (clearAllMarkers []) ∧
     (findMarker [] "u1" ≠ none →
       toggleMarker [] "u1" = List.filter (fun m => m.uid != "u1") [] ∧
       (toggleMarker [] "u1").countP (fun m => m.uid == "u1") = 0) ∧
     (findMarker [] "u1" = none →
       toggleMarker [] "u1" = [] ++ [⟨"u1", getNextColorIdx []⟩] ∧
       (toggleMarker [] "u1").countP (fun m => m.uid == "u1") = 1)) := by
  have h : UidUnique [] := fun u => by simp [UidUnique]
  exact ⟨h, toggleMarker_uid_invariant [] "u1" h⟩

/-- C6 counterexample: with 8 markers occupying all 8 palette slots, the 9th
marker is assigned slot 0, not `9 mod 8 = 1`. -/
theorem getNextColorIdx_ninth_not_9_mod_8 :
    toggleMarker markers8 "u8" = markers8 ++ [⟨"u8", 0⟩] ∧ 0 ≠ 9 % 8 := by
  exact ⟨by decide, by decide⟩

/-- C6 (amended): a new marker takes the lowest palette slot (0..7) unused
by existing markers; once all 8 slots are used, assignment falls back to
round-robin on the number of existing markers, so the 9th marker added to 8
existing markers gets slot `8 mod 8 = 0`. -/
theorem getNextColorIdx_assignment (ms : List Marker) :
    (∀ i, i < 8 → (∀ m ∈ ms, m.colorIdx ≠ i) →
      (∀ j, j < i → ∃ m ∈ ms, m.colorIdx = j) → getNextColorIdx ms = i) ∧
    ((∀ j, j < 8 → ∃ m ∈ ms, m.colorIdx = j) →
      getNextColorIdx ms = ms.length % 8) ∧
    toggleMarker markers8 "u8" = markers8 ++ [⟨"u8", 8 % 8⟩] := by
  refine ⟨?_, ?_, by decide⟩
  · intro i hi hfree hlow
    have hp : (!ms.any (fun m => m.colorIdx == i)) = true := by
      simp only [Bool.not_eq_true', List.any_eq_false]
      intro m hm
      simpa using hfree m hm
    have hl : ∀ j, j < i → (!ms.any (fun m => m.colorIdx == j)) = false := by
      intro j hj
      obtain ⟨m, hm, he⟩ := hlow j hj
      simp only [Bool.not_eq_false', List.any_eq_true]
      exact ⟨m, hm, by simp [he]⟩
    unfold getNextColorIdx
    rw [show MARKER_PALETTE.length = 8 from rfl,
      find?_range_eq_some _ 8 i hi hp hl]
  · intro hall
    have hnone : (List.range MARKER_PALETTE.length).find?
        (fun i => !ms.any (fun m => m.colorIdx == i)) = none := by
      rw [List.find?_eq_none]
      intro x hx
      have hx8 : x < 8 := by simpa [MARKER_PALETTE] using List.mem_range.mp hx
      obtain ⟨m, hm, he⟩ := hall x hx8
      intro hc
      have hany : ms.any (fun m => m.colorIdx == x) = true :=
        List.any_eq_true.mpr ⟨m, hm, by simp [he]⟩
      simp [hany] at hc
    unfold getNextColorIdx
    rw [hnone]
    rfl

/-- Witness for `getNextColorIdx_assignment`: all 8 slots used by
`markers8`, so the fallback `length mod 8` applies. -/
theorem getNextColorIdx_assignment_witness :
    (∀ j, j < 8 → ∃ m ∈ markers8, m.colorIdx = j) ∧
    getNextColorIdx markers8 = markers8.length % 8 :=
  ⟨by decide, (getNextColorIdx_assignment markers8).2.1 (by decide)⟩

/-! ## Zoom persistence -/

/-- C9: loading the persisted zoom string `"abc"` commits `NaN` — the NaN
passes `Math.max(0.4, Math.min(2.5, scale))` unclamped, so the committed
zoom is neither within `[0.4, 2.5]` nor the untouched default. -/
theorem initZoom_malformed_not_clamped :
    initZoom (some "abc") (JsNum.num 1) = JsNum.nan ∧
    jsParseFloat "abc" = JsNum.nan ∧
    setZoomScale JsNum.nan = JsNum.nan ∧
    (∀ q : ℚ, JsNum.nan ≠ JsNum.num q) ∧
    JsNum.nan ≠ JsNum.num 1 := by
  refine ⟨by decide, by decide, rfl, fun q => by simp, by simp⟩

/-! ## Subject pill -/

/-- C7: `pill-next` and `pill-prev` step the cursor cyclically
(`(idx ± 1 + n) mod n`, always landing in `[0, n)`), and the pill filter
toggle flips `filterEnabled` and recomputes visibility without changing the
cursor. -/
theorem pill_step_cyclic (st : PillApp) (hne : st.refs ≠ [])
    (_hidx : st.idx < st.refs.length) :
    ((pillNext st).idx = (st.idx + 1) % st.refs.length ∧
      (pillNext st).idx < st.refs.length) ∧
    (((pillPrev st).idx : Int) =
        ((st.idx : Int) - 1 + st.refs.length) % (st.refs.length : Int) ∧
      (pillPrev st).idx < st.refs.length) ∧
    ((pillToggleFilter st).filterOn = !st.filterOn ∧
      (pillToggleFilter st).idx = st.idx ∧
      (pillToggleFilter st).cards =
        applySubjectFilter st.refs (!st.filterOn) st.cards) := by
  have hpos : 0 < st.refs.length := List.length_pos.mpr hne
  have h0 : (0 : Int) < (st.refs.length : Int) := by exact_mod_cast hpos
  have hnn : 0 ≤ ((st.idx : Int) - 1 + st.refs.length) % (st.refs.length : Int) :=
    Int.emod_nonneg _ (by omega)
  have hlt : ((st.idx : Int) - 1 + st.refs.length) % (st.refs.length : Int) <
      (st.refs.length : Int) := Int.emod_lt_of_pos _ h0
  refine ⟨⟨rfl, Nat.mod_lt _ hpos⟩, ⟨?_, ?_⟩, rfl, rfl, rfl⟩
  · show ((((st.idx : Int) - 1 + st.refs.length) % (st.refs.length : Int)).toNat : Int) = _
    exact Int.toNat_of_nonneg hnn
  · show (((st.idx : Int) - 1 + st.refs.length) % (st.refs.length : Int)).toNat <
      st.refs.length
    omega

/-! ## Version diff: tie-break and whitespace invariance -/

/-- C3: at a backtrack position where the two tokens differ and the table
scores the deletion and insertion directions equally, the backtrack takes the
insertion direction; `wordDiff` of identical texts is all-`eq`, and
`wordDiff("a b", "a x b")` is exactly `[eq a, ins x, eq b]`. -/
theorem wordDiff_tie_prefers_insertion :
    (∀ (a b : List Tok) (f i j : Nat), 0 < i → 0 < j →
      a.getD (i - 1) [] ≠ b.getD (j - 1) [] →
      dp a b (i - 1) j = dp a b i (j - 1) →
      backtrack a b (f + 1) i j =
        backtrack a b f i (j - 1) ++ [⟨.ins, b.getD (j - 1) []⟩]) ∧
    wordDiff "a b c".data "a b c".data =
      [⟨.eq, "a".data⟩, ⟨.eq, "b".data⟩, ⟨.eq, "c".data⟩] ∧
    wordDiff "a b".data "a x b".data =
      [⟨.eq, "a".data⟩, ⟨.ins, "x".data⟩, ⟨.eq, "b".data⟩] := by
  refine ⟨?_, by decide, by decide⟩
  intro a b f i j hi hj hne htie
  show backtrack a b (f + 1) i j = _
  simp only [backtrack]
  rw [if_neg (by omega), if_neg (fun h => hne h.2.2),
    if_pos ⟨hj, Or.inr (le_of_eq htie)⟩]

/-- Witness for the tie-break direction of `wordDiff_tie_prefers_insertion`
at single differing tokens (both directions score 0). -/
theorem wordDiff_tie_witness :
    dp ["a".data] ["b".data] 0 1 = dp ["a".data] ["b".data] 1 0 ∧
    backtrack ["a".data] ["b".data] 2 1 1 =
      backtrack ["a".data] ["b".data] 1 1 0 ++ [⟨.ins, "b".data⟩] :=
  ⟨by decide,
    wordDiff_tie_prefers_insertion.1 ["a".data] ["b".data] 1 1 1
      (by decide) (by decide) (by decide) (by decide)⟩

/-- The backtrack over one token list against itself emits only `eq`
entries. -/
theorem backtrack_self_all_eq (t : List Tok) :
    ∀ f k, ∀ e ∈ backtrack t t f k k, e.type = .eq := by
  intro f
  induction f with
  | zero => intro k e he; simp [backtrack] at he
  | succ f ih =>
    intro k e he
    cases k with
    | zero => simp [backtrack] at he
    | succ k =>
      simp only [backtrack] at he
      rw [if_neg (by omega), if_pos (by simp)] at he
      rcases List.mem_append.mp he with h | h
      · exact ih k e h
      · simp only [List.mem_singleton] at h
        rw [h]

/-- C10: `wordDiff` depends only on the whitespace-token sequences of its
inputs, and whenever the two token sequences coincide the script is
all-`eq`. -/
theorem wordDiff_whitespace_invariance :
    (∀ A B : List Char, wsTokens A = wsTokens B →
      ∀ e ∈ wordDiff A B, e.type = .eq) ∧
    (∀ A A2 B B2 : List Char, wsTokens A = wsTokens A2 → wsTokens B = wsTokens B2 →
      wordDiff A B = wordDiff A2 B2) := by
  constructor
  · intro A B h e he
    simp only [wordDiff, h] at he
    exact backtrack_self_all_eq (wsTokens B) _ _ e he
  · intro A A2 B B2 h1 h2
    simp only [wordDiff, h1, h2]

/-- Witness for `wordDiff_whitespace_invariance` on texts differing only in
whitespace. -/
theorem wordDiff_whitespace_invariance_witness :
    wsTokens " a b ".data = wsTokens "a  b".data ∧
    (∀ e ∈ wordDiff " a b ".data "a  b".data, e.type = .eq) :=
  ⟨by decide, wordDiff_whitespace_invariance.1 " a b ".data "a  b".data (by decide)⟩

/-- Witness for `pill_step_cyclic` at a concrete two-ref pill state. -/
theorem pill_step_cyclic_witness :
    (pillW.refs ≠ [] ∧ pillW.idx < pillW.refs.length) ∧
    (((pillNext pillW).idx = (pillW.idx + 1) % pillW.refs.length ∧
       (pillNext pillW).idx < pillW.refs.length) ∧
     (((pillPrev pillW).idx : Int) =
         ((pillW.idx : Int) - 1 + pillW.refs.length) % (pillW.refs.length : Int) ∧
       (pillPrev pillW).idx < pillW.refs.length) ∧
     ((pillToggleFilter pillW).filterOn = !pillW.filterOn ∧
       (pillToggleFilter pillW).idx = pillW.idx ∧
       (pillToggleFilter pillW).cards =
         applySubjectFilter pillW.refs (!pillW.filterOn) pillW.cards)) :=
  ⟨⟨by decide, by decide⟩, pill_step_cyclic pillW (by decide) (by decide)⟩

/-! ## Search engine -/

/-- `strIncludes` decides contiguous-substring containment (`List.IsInfix`). -/
theorem strIncludes_iff (hay needle : List Char) :
    strIncludes hay needle = true ↔ needle <:+: hay := by
  induction hay with
  | nil =>
    simp [strIncludes, List.isEmpty_iff, List.infix_nil]
  | cons a t ih =>
    simp [strIncludes, ih, List.isPrefixOf_iff_prefix, List.infix_cons_iff]

/-- A term recognized by the quick-jump grammar starts with `a`/`A`, so it is
never footnote-prefixed. -/
theorem artMatch_foot_none (s : List Char) (x : Option String × String)
    (h : artMatch s = some x) : footMatch s = none := by
  cases s with
  | nil => simp [artMatch] at h
  | cons c t =>
    by_cases hc : c = 'a' ∨ c = 'A'
    · have hr : ¬(c = 'r' ∨ c = 'R') := by
        rcases hc with rfl | rfl <;> decide
      simp [footMatch, hr]
    · simp [artMatch, hc] at h

/-- A term recognized by the quick-jump grammar is non-empty. -/
theorem artMatch_ne_nil (s : List Char) (x : Option String × String)
    (h : artMatch s = some x) : s ≠ [] := by
  intro hnil
  subst hnil
  simp [artMatch] at h

/-- C1: when the term is neither empty, nor footnote-prefixed, nor a
quick-jump, `doSearch` runs the full text search, and an article card is in
the match set iff it survives the active subject filter and its normalized
text (footnotes excluded) contains every whitespace token of the normalized
term as a substring. -/
theorem doSearch_and_semantics (norm : List Char → List Char) (cards : List Card)
    (subj : Option (List Ref)) (term : List Char)
    (hne : term ≠ []) (hfoot : footMatch term = none) (hart : artMatch term = none) :
    ∃ ms, doSearch norm cards subj term = .textSearch ms ∧
      ∀ c, c ∈ ms ↔
        c ∈ cards ∧ c.isArtigo = true ∧ cardVisibleAfterSubject subj c = true ∧
        ∀ tk ∈ wsTokens (norm term), tk <:+: getCardText norm c false := by
  have h1 : term.isEmpty = false := by
    cases term with
    | nil => exact absurd rfl hne
    | cons c t => rfl
  have heq : doSearch norm cards subj term = .textSearch
      ((cards.filter (fun c => c.isArtigo && cardVisibleAfterSubject subj c)).filter
        (fun c => (wsTokens (norm term)).all
          (fun tk => strIncludes (getCardText norm c false) tk))) := by
    simp only [doSearch, h1, hfoot, hart, Bool.false_eq_true, if_false]
  refine ⟨_, heq, ?_⟩
  intro c
  simp only [List.mem_filter, Bool.and_eq_true, List.all_eq_true,
    strIncludes_iff, and_assoc]

/-- Witness for `doSearch_and_semantics` on a one-article document and the
two-token term `x y`. -/
theorem doSearch_and_semantics_witness :
    ("x y".data ≠ [] ∧ footMatch "x y".data = none ∧ artMatch "x y".data = none) ∧
    (∃ ms, doSearch id [Card.artigo "1" none "xy z".data "xy z".data] none "x y".data =
        .textSearch ms ∧
      ∀ c, c ∈ ms ↔
        c ∈ [Card.artigo "1" none "xy z".data "xy z".data] ∧ c.isArtigo = true ∧
        cardVisibleAfterSubject none c = true ∧
        ∀ tk ∈ wsTokens (id "x y".data), tk <:+: getCardText id c false) :=
  ⟨⟨by decide, by decide, by decide⟩,
    doSearch_and_semantics id [Card.artigo "1" none "xy z".data "xy z".data] none
      "x y".data (by decide) (by decide) (by decide)⟩

/-- C4: a term matching the quick-jump grammar makes `doSearch` navigate
directly (producing no match set and no highlights); with no law prefix the
first unprefixed article of that number is selected when one exists, else the
first article of that number. -/
theorem doSearch_quick_jump (norm : List Char → List Char) (cards : List Card)
    (subj : Option (List Ref)) (term : List Char) (pre : Option String) (num : String)
    (h : artMatch term = some (pre, num)) :
    doSearch norm cards subj term = .quickJump (findArtCard cards pre num) ∧
    (pre = none →
      ((∃ c ∈ cards, c.isUnprefArt num = true) →
        ∃ c, findArtCard cards none num = some c ∧ c.isUnprefArt num = true) ∧
      ((∃ c ∈ cards, c.hasArtNum num = true) →
        ∃ c, findArtCard cards none num = some c ∧ c.hasArtNum num = true)) := by
  have hfoot : footMatch term = none := artMatch_foot_none term _ h
  have hne2 : term ≠ [] := artMatch_ne_nil term _ h
  have h1 : term.isEmpty = false := by
    cases term with
    | nil => exact absurd rfl hne2
    | cons c t => rfl
  constructor
  · simp only [doSearch, h1, hfoot, h, Bool.false_eq_true, if_false]
  · rintro rfl
    constructor
    · rintro ⟨c, hc, hp⟩
      cases hfind : cards.find? (Card.isUnprefArt num) with
      | none => exact absurd hp (List.find?_eq_none.mp hfind c hc)
      | some d =>
        refine ⟨d, ?_, List.find?_some hfind⟩
        simp [findArtCard, hfind]
    · rintro ⟨c, hc, hp⟩
      cases hfind : cards.find? (Card.isUnprefArt num) with
      | none =>
        have hsome : (cards.find? (Card.hasArtNum num)).isSome = true :=
          List.find?_isSome.mpr ⟨c, hc, hp⟩
        obtain ⟨d, hd⟩ := Option.isSome_iff_exists.mp hsome
        refine ⟨d, ?_, List.find?_some hd⟩
        simp [findArtCard, hfind, hd]
      | some d =>
        have hn : d.hasArtNum num = true := by
          have hu := List.find?_some hfind
          cases d with
          | titulo _ => simp [Card.isUnprefArt] at hu
          | artigo a l r1 r2 =>
            simp only [Card.isUnprefArt, Bool.and_eq_true] at hu
            simp [Card.hasArtNum, hu.1]
        refine ⟨d, ?_, hn⟩
        simp [findArtCard, hfind]

/-- Witness for `doSearch_quick_jump` at term `a43` over a document holding
a prefixed and an unprefixed article 43. -/
theorem doSearch_quick_jump_witness :
    artMatch "a43".data = some (none, "43") ∧
    (doSearch id [Card.artigo "43" (some "ADT") [] [], Card.artigo "43" none [] []]
        none "a43".data =
      .quickJump (findArtCard
        [Card.artigo "43" (some "ADT") [] [], Card.artigo "43" none [] []] none "43") ∧
    (none = (none : Option String) →
      ((∃ c ∈ [Card.artigo "43" (some "ADT") [] [], Card.artigo "43" none [] []],
          c.isUnprefArt "43" = true) →
        ∃ c, findArtCard [Card.artigo "43" (some "ADT") [] [],
            Card.artigo "43" none [] []] none "43" = some c ∧
          c.isUnprefArt "43" = true) ∧
      ((∃ c ∈ [Card.artigo "43" (some "ADT") [] [], Card.artigo "43" none [] []],
          c.hasArtNum "43" = true) →
        ∃ c, findArtCard [Card.artigo "43" (some "ADT") [] [],
            Card.artigo "43" none [] []] none "43" = some c ∧
          c.hasArtNum "43" = true))) :=
  ⟨by decide,
    doSearch_quick_jump id
      [Card.artigo "43" (some "ADT") [] [], Card.artigo "43" none [] []]
      none "a43".data none "43" (by decide)⟩

/-! ## Reference compaction -/

/-- Unfolding equation of `runEnd` at a parsed head. -/
theorem runEnd_cons_some (e : Int) (r : Ref) (rs : List Ref) (nxt : Int)
    (hp : jsParseInt r.art = some nxt) :
    runEnd e (r :: rs) = if nxt = e + 1 then runEnd nxt rs else (e, r :: rs) := by
  rw [runEnd, hp]

/-- Unfolding equation of `runEnd` at an unparsable head. -/
theorem runEnd_cons_none (e : Int) (r : Ref) (rs : List Ref)
    (hp : jsParseInt r.art = none) :
    runEnd e (r :: rs) = (e, r :: rs) := by
  rw [runEnd, hp]

/-- Unfolding equation of `compactLoop` at a parsed head. -/
theorem compactLoop_cons_some (p : String) (f : Nat) (r : Ref) (rs : List Ref)
    (st : Int) (hp : jsParseInt r.art = some st) :
    compactLoop p (f + 1) (r :: rs) =
      (if 2 ≤ (runEnd st rs).1 - st then
        (p ++ "arts. " ++ toString st ++ " – " ++ toString (runEnd st rs).1) ::
          compactLoop p f (runEnd st rs).2
      else if (runEnd st rs).1 - st = 1 then
        (p ++ "art. " ++ toString st) :: (p ++ "art. " ++ toString (runEnd st rs).1) ::
          compactLoop p f (runEnd st rs).2
      else (p ++ "art. " ++ toString st) :: compactLoop p f (runEnd st rs).2) := by
  rw [compactLoop, hp]

/-- Unfolding equation of `compactLoop` at an unparsable head. -/
theorem compactLoop_cons_none (p : String) (f : Nat) (r : Ref) (rs : List Ref)
    (hp : jsParseInt r.art = none) :
    compactLoop p (f + 1) (r :: rs) =
      (p ++ "art. " ++ r.art) :: compactLoop p f rs := by
  rw [compactLoop, hp]

/-- The run scan never lengthens its suffix. -/
theorem runEnd_length (l : List Ref) : ∀ e : Int, (runEnd e l).2.length ≤ l.length := by
  induction l with
  | nil => intro e; simp [runEnd]
  | cons r rs ih =>
    intro e
    cases hp : jsParseInt r.art with
    | none => rw [runEnd_cons_none e r rs hp]
    | some nxt =>
      rw [runEnd_cons_some e r rs nxt hp]
      by_cases hstep : nxt = e + 1
      · rw [if_pos hstep]
        exact le_trans (ih nxt) (by simp)
      · rw [if_neg hstep]

/-- The compaction loop is fuel-independent once the fuel covers the list
length. -/
theorem compactLoop_fuel (p : String) :
    ∀ f g l, l.length ≤ f → l.length ≤ g → compactLoop p f l = compactLoop p g l := by
  intro f
  induction f with
  | zero =>
    intro g l hf _
    have hnil : l = [] := by
      cases l with
      | nil => rfl
      | cons r rs => simp at hf
    subst hnil
    cases g <;> rfl
  | succ f ih =>
    intro g l hf hg
    cases l with
    | nil => cases g <;> rfl
    | cons r rs =>
      cases g with
      | zero => simp at hg
      | succ g =>
        have hlen : rs.length ≤ f := by
          simp only [List.length_cons] at hf
          omega
        have hlen2 : rs.length ≤ g := by
          simp only [List.length_cons] at hg
          omega
        cases hp : jsParseInt r.art with
        | none =>
          rw [compactLoop_cons_none p f r rs hp, compactLoop_cons_none p g r rs hp,
            ih g rs hlen hlen2]
        | some st =>
          have hrest := runEnd_length rs st
          have hrec := ih g (runEnd st rs).2 (by omega) (by omega)
          rw [compactLoop_cons_some p f r rs st hp, compactLoop_cons_some p g r rs st hp]
          split_ifs <;> rw [hrec]

/-- Scanning an arithmetic chain `e+1, e+2, …` consumes exactly the chain
when the following ref (if any) does not continue it. -/
theorem runEnd_chain (c : List Ref) : ∀ (e : Int) (rest : List Ref),
    (∀ k (hk : k < c.length), jsParseInt (c.get ⟨k, hk⟩).art = some (e + 1 + k)) →
    (∀ r, rest.head? = some r → jsParseInt r.art ≠ some (e + 1 + c.length)) →
    runEnd e (c ++ rest) = (e + c.length, rest) := by
  induction c with
  | nil =>
    intro e rest _ hmax
    simp only [List.nil_append, List.length_nil, Nat.cast_zero, add_zero]
    cases rest with
    | nil => simp [runEnd]
    | cons r rs =>
      have hne := hmax r rfl
      simp only [List.length_nil, Nat.cast_zero, add_zero] at hne
      cases hp : jsParseInt r.art with
      | none => rw [runEnd_cons_none e r rs hp]
      | some nxt =>
        rw [runEnd_cons_some e r rs nxt hp, if_neg]
        intro hc
        exact hne (by rw [hp, hc])
  | cons r c ih =>
    intro e rest hchain hmax
    have h0 : jsParseInt r.art = some (e + 1) := by
      have h00 := hchain 0 (by simp)
      simpa using h00
    rw [List.cons_append, runEnd_cons_some e r (c ++ rest) (e + 1) h0, if_pos rfl,
      ih (e + 1) rest ?_ ?_]
    · have hcast : e + 1 + (c.length : Int) = e + ((r :: c).length : Int) := by
        simp only [List.length_cons]
        push_cast
        ring
      rw [hcast]
    · intro k hk
      have hk2 : k + 1 < (r :: c).length := by
        simp only [List.length_cons]
        omega
      have hc := hchain (k + 1) hk2
      have hget : (r :: c).get ⟨k + 1, hk2⟩ = c.get ⟨k, hk⟩ := rfl
      rw [hget] at hc
      rw [hc]
      congr 1
      push_cast
      ring
    · intro r2 h2
      have hm := hmax r2 h2
      intro hcon
      apply hm
      rw [hcon]
      congr 1
      simp only [List.length_cons]
      push_cast
      ring

/-- One maximal arithmetic chain at the head of the (sorted) plain refs is
compacted to a range part when its length is at least 3, to two singles when
its length is exactly 2, and to one single otherwise; the loop then continues
on the rest. -/
theorem compactLoop_chain (p : String) (n : Int) (c rest : List Ref)
    (hne : c ≠ [])
    (hchain : ∀ k (hk : k < c.length), jsParseInt (c.get ⟨k, hk⟩).art = some (n + k))
    (hmax : ∀ r, rest.head? = some r → jsParseInt r.art ≠ some (n + c.length)) :
    compactPlain p (c ++ rest) =
      (if 3 ≤ c.length then
        [p ++ "arts. " ++ toString n ++ " – " ++ toString (n + c.length - 1)]
      else if c.length = 2 then
        [p ++ "art. " ++ toString n, p ++ "art. " ++ toString (n + 1)]
      else [p ++ "art. " ++ toString n]) ++ compactPlain p rest := by
  obtain ⟨r, c2, rfl⟩ : ∃ r c2, c = r :: c2 := by
    cases c with
    | nil => exact absurd rfl hne
    | cons r c2 => exact ⟨r, c2, rfl⟩
  have h0 : jsParseInt r.art = some n := by
    have h00 := hchain 0 (by simp)
    simpa using h00
  have hrun : runEnd n (c2 ++ rest) = (n + c2.length, rest) := by
    refine runEnd_chain c2 n rest ?_ ?_
    · intro k hk
      have hk2 : k + 1 < (r :: c2).length := by
        simp only [List.length_cons]
        omega
      have hc := hchain (k + 1) hk2
      have hget : (r :: c2).get ⟨k + 1, hk2⟩ = c2.get ⟨k, hk⟩ := rfl
      rw [hget] at hc
      rw [hc]
      congr 1
      push_cast
      ring
    · intro r2 h2
      have hm := hmax r2 h2
      intro hcon
      apply hm
      rw [hcon]
      congr 1
      simp only [List.length_cons]
      push_cast
      ring
  have hunfold : compactPlain p ((r :: c2) ++ rest) =
      compactLoop p ((c2 ++ rest).length + 1) (r :: (c2 ++ rest)) := by
    unfold compactPlain
    rfl
  rw [hunfold, compactLoop_cons_some p ((c2 ++ rest).length) r (c2 ++ rest) n h0, hrun]
  have htail : compactLoop p ((c2 ++ rest).length) rest = compactPlain p rest := by
    unfold compactPlain
    exact compactLoop_fuel p _ _ rest (by simp) le_rfl
  have hsub : n + (c2.length : Int) - n = (c2.length : Int) := by ring
  by_cases h3 : 2 ≤ (c2.length : Int)
  · have h3n : 3 ≤ (r :: c2).length := by
      simp only [List.length_cons]
      omega
    rw [if_pos (by rw [hsub]; exact h3), if_pos h3n, htail]
    simp only [List.length_cons, List.cons_append, List.singleton_append]
    congr 3
    push_cast
    ring
  · by_cases h2 : (c2.length : Int) = 1
    · have hc2 : c2.length = 1 := by exact_mod_cast h2
      have hgoal2 : (r :: c2).length = 2 := by simp [hc2]
      rw [if_neg (by rw [hsub]; omega), if_pos (by rw [hsub]; exact h2),
        if_neg (by omega), if_pos hgoal2, htail]
      simp only [List.cons_append, List.singleton_append]
      congr 3
      rw [h2]
    · have hc0 : c2.length = 0 := by omega
      rw [if_neg (by rw [hsub]; omega), if_neg (by rw [hsub]; omega), htail]
      rw [if_neg (by simp [hc0]), if_neg (by simp [hc0])]
      simp

/-! ## Version diff: faithfulness and maximality -/

/-- Unfolding equation for `lcsLen` on two non-empty lists. -/
theorem lcsLen_cons_cons (x y : Tok) (xs ys : List Tok) :
    lcsLen (x :: xs) (y :: ys) =
      if x = y then lcsLen xs ys + 1
      else max (lcsLen (x :: xs) ys) (lcsLen xs (y :: ys)) := by
  rw [lcsLen]

theorem lcsLen_nil_left (v : List Tok) : lcsLen [] v = 0 := by
  rw [lcsLen]

theorem lcsLen_nil_right (u : List Tok) : lcsLen u [] = 0 := by
  cases u with
  | nil => rw [lcsLen]
  | cons x xs => rw [lcsLen]

/-- An LCS is no longer than either list. -/
theorem lcsLen_le (u v : List Tok) :
    lcsLen u v ≤ u.length ∧ lcsLen u v ≤ v.length := by
  induction u, v using lcsLen.induct with
  | case1 v => simp [lcsLen_nil_left]
  | case2 x xs => simp [lcsLen_nil_right]
  | case3 xs y ys ih =>
    rw [lcsLen_cons_cons, if_pos rfl]
    simp only [List.length_cons]
    omega
  | case4 x xs y ys hne ih1 ih2 =>
    rw [lcsLen_cons_cons, if_neg hne]
    simp only [List.length_cons] at ih1 ih2 ⊢
    constructor
    · exact max_le ih1.1 (by omega)
    · exact max_le (by omega) ih2.2

/-- Every common subsequence is bounded by the LCS length. -/
theorem length_le_lcsLen (u v : List Tok) :
    ∀ s : List Tok, s.Sublist u → s.Sublist v → s.length ≤ lcsLen u v := by
  induction u, v using lcsLen.induct with
  | case1 v =>
    intro s h1 _
    rw [List.sublist_nil.mp h1]
    simp
  | case2 x xs =>
    intro s _ h2
    rw [List.sublist_nil.mp h2]
    simp
  | case3 xs y ys ih =>
    intro s h1 h2
    rw [lcsLen_cons_cons, if_pos rfl]
    rcases List.sublist_cons_iff.mp h1 with h1b | ⟨s2, rfl, h1b⟩
    · rcases List.sublist_cons_iff.mp h2 with h2b | ⟨s2, rfl, h2b⟩
      · exact le_trans (ih s h1b h2b) (Nat.le_succ _)
      · have hs2 : s2.Sublist xs := (List.sublist_cons_self y s2).trans h1b
        simpa using Nat.succ_le_succ (ih s2 hs2 h2b)
    · rcases List.sublist_cons_iff.mp h2 with h2b | ⟨s3, heq, h2b⟩
      · have hs2 : s2.Sublist ys := (List.sublist_cons_self y s2).trans h2b
        simpa using Nat.succ_le_succ (ih s2 h1b hs2)
      · have hs23 : s2 = s3 := by
          injection heq
        subst hs23
        simpa using Nat.succ_le_succ (ih s2 h1b h2b)
  | case4 x xs y ys hne ih1 ih2 =>
    intro s h1 h2
    rw [lcsLen_cons_cons, if_neg hne]
    rcases List.sublist_cons_iff.mp h1 with h1b | ⟨s2, rfl, h1b⟩
    · exact le_trans (ih2 s h1b h2) (le_max_right _ _)
    · rcases List.sublist_cons_iff.mp h2 with h2b | ⟨s3, heq, h2b⟩
      · exact le_trans (ih1 (x :: s2) h1 h2b) (le_max_left _ _)
      · have hxy : x = y := by
          injection heq with hxy hrest
        exact absurd hxy hne

/-- Taking one more element appends the indexed element. -/
theorem take_succ_getD (l : List Tok) (i : Nat) (h : i < l.length) :
    l.take (i + 1) = l.take i ++ [l.getD i []] := by
  rw [List.take_succ]
  congr 1
  rw [List.getD_eq_getElem l [] h, List.getElem?_eq_getElem h]
  rfl

theorem lcsPre_zero_left (a b : List Tok) (j : Nat) : lcsPre a b 0 j = 0 := by
  unfold lcsPre
  simp [lcsLen_nil_left]

theorem lcsPre_zero_right (a b : List Tok) (i : Nat) : lcsPre a b i 0 = 0 := by
  unfold lcsPre
  simp [lcsLen_nil_right]

/-- Recursion equation for the true prefix-LCS values, matching the `dp`
table of `wordDiff` at in-range indices. -/
theorem lcsPre_succ_succ (a b : List Tok) (i j : Nat)
    (hi : i < a.length) (hj : j < b.length) :
    lcsPre a b (i + 1) (j + 1) =
      if a.getD i [] = b.getD j [] then lcsPre a b i j + 1
      else max (lcsPre a b (i + 1) j) (lcsPre a b i (j + 1)) := by
  unfold lcsPre
  rw [take_succ_getD a i hi, take_succ_getD b j hj, List.reverse_append,
    List.reverse_append]
  simp only [List.reverse_singleton, List.singleton_append]
  rw [lcsLen_cons_cons]

/-- The true prefix-LCS value is bounded by both prefix lengths. -/
theorem lcsPre_le_min (a b : List Tok) (i j : Nat)
    (hi : i ≤ a.length) (hj : j ≤ b.length) : lcsPre a b i j ≤ min i j := by
  have hl := lcsLen_le ((a.take i).reverse) ((b.take j).reverse)
  have h1 : ((a.take i).reverse).length = i := by
    simp [List.length_reverse, List.length_take, min_eq_left hi]
  have h2 : ((b.take j).reverse).length = j := by
    simp [List.length_reverse, List.length_take, min_eq_left hj]
  rw [h1] at hl
  rw [h2] at hl
  exact le_min hl.1 hl.2

/-- As long as both prefixes stay within `65535` tokens, the `Uint16Array`
stores of `wordDiff` never wrap and the table holds the true LCS lengths. -/
theorem dpFuel_eq_lcsPre (a b : List Tok) :
    ∀ f i j, i + j ≤ f → i ≤ a.length → j ≤ b.length → min i j ≤ 65535 →
      dpFuel a b f i j = lcsPre a b i j := by
  intro f
  induction f with
  | zero =>
    intro i j h _ _ _
    have hi0 : i = 0 := by omega
    have hj0 : j = 0 := by omega
    subst hi0
    subst hj0
    rw [lcsPre_zero_left]
    rfl
  | succ f ih =>
    intro i j h hi hj hm
    cases i with
    | zero =>
      rw [lcsPre_zero_left]
      rfl
    | succ i =>
      cases j with
      | zero =>
        rw [lcsPre_zero_right]
        rfl
      | succ j =>
        rw [show dpFuel a b (f + 1) (i + 1) (j + 1) =
          (if a.getD i [] = b.getD j [] then (dpFuel a b f i j + 1) % 65536
           else max (dpFuel a b f i (j + 1)) (dpFuel a b f (i + 1) j)) from rfl]
        rw [lcsPre_succ_succ a b i j (by omega) (by omega)]
        by_cases heq : a.getD i [] = b.getD j []
        · rw [if_pos heq, if_pos heq,
            ih i j (by omega) (by omega) (by omega) (by omega)]
          have hle : lcsPre a b i j ≤ min i j :=
            lcsPre_le_min a b i j (by omega) (by omega)
          rw [Nat.mod_eq_of_lt (by omega)]
        · rw [if_neg heq, if_neg heq,
            ih i (j + 1) (by omega) (by omega) hj (by omega),
            ih (i + 1) j (by omega) hi (by omega) (by omega)]
          exact max_comm _ _

/-- The canonical table entries of `wordDiff` are true prefix-LCS values at
in-range, non-wrapping indices. -/
theorem dp_eq_lcsPre (a b : List Tok) (i j : Nat)
    (hi : i ≤ a.length) (hj : j ≤ b.length) (hm : min i j ≤ 65535) :
    dp a b i j = lcsPre a b i j :=
  dpFuel_eq_lcsPre a b (i + j) i j le_rfl hi hj hm

/-- Unfolding equation of the backtrack loop at positive fuel. -/
theorem backtrack_succ (a b : List Tok) (f i j : Nat) :
    backtrack a b (f + 1) i j =
      if i = 0 ∧ j = 0 then []
      else if 0 < i ∧ 0 < j ∧ a.getD (i - 1) [] = b.getD (j - 1) [] then
        backtrack a b f (i - 1) (j - 1) ++ [⟨.eq, a.getD (i - 1) []⟩]
      else if 0 < j ∧ (i = 0 ∨ dp a b (i - 1) j ≤ dp a b i (j - 1)) then
        backtrack a b f i (j - 1) ++ [⟨.ins, b.getD (j - 1) []⟩]
      else backtrack a b f (i - 1) j ++ [⟨.del, a.getD (i - 1) []⟩] := by
  rw [backtrack]

/-- The backtrack script projects exactly onto the two token prefixes: its
`eq`/`del` tokens are `a[0..i)` and its `eq`/`ins` tokens are `b[0..j)`. -/
theorem backtrack_proj (a b : List Tok) :
    ∀ f i j, i + j ≤ f → i ≤ a.length → j ≤ b.length →
      oldProj (backtrack a b f i j) = a.take i ∧
      newProj (backtrack a b f i j) = b.take j := by
  intro f
  induction f with
  | zero =>
    intro i j h _ _
    have hi0 : i = 0 := by omega
    have hj0 : j = 0 := by omega
    subst hi0
    subst hj0
    simp [backtrack, oldProj, newProj]
  | succ f ih =>
    intro i j h hi hj
    rw [backtrack_succ]
    by_cases h0 : i = 0 ∧ j = 0
    · obtain ⟨rfl, rfl⟩ := h0
      rw [if_pos ⟨rfl, rfl⟩]
      simp [oldProj, newProj]
    · rw [if_neg h0]
      by_cases h1 : 0 < i ∧ 0 < j ∧ a.getD (i - 1) [] = b.getD (j - 1) []
      · obtain ⟨hi0, hj0, heq⟩ := h1
        rw [if_pos ⟨hi0, hj0, heq⟩]
        obtain ⟨i2, rfl⟩ : ∃ i2, i = i2 + 1 := ⟨i - 1, by omega⟩
        obtain ⟨j2, rfl⟩ : ∃ j2, j = j2 + 1 := ⟨j - 1, by omega⟩
        simp only [Nat.add_sub_cancel] at heq ⊢
        obtain ⟨ho, hn⟩ := ih i2 j2 (by omega) (by omega) (by omega)
        constructor
        · rw [show oldProj (backtrack a b f i2 j2 ++ [⟨.eq, a.getD i2 []⟩]) =
              oldProj (backtrack a b f i2 j2) ++ [a.getD i2 []] from by
            simp [oldProj, List.filter_append, DiffType.isIns], ho,
            ← take_succ_getD a i2 (by omega)]
        · rw [show newProj (backtrack a b f i2 j2 ++ [⟨.eq, a.getD i2 []⟩]) =
              newProj (backtrack a b f i2 j2) ++ [a.getD i2 []] from by
            simp [newProj, List.filter_append, DiffType.isDel], hn, heq,
            ← take_succ_getD b j2 (by omega)]
      · rw [if_neg h1]
        by_cases h2 : 0 < j ∧ (i = 0 ∨ dp a b (i - 1) j ≤ dp a b i (j - 1))
        · rw [if_pos h2]
          obtain ⟨j2, rfl⟩ : ∃ j2, j = j2 + 1 := ⟨j - 1, by omega⟩
          simp only [Nat.add_sub_cancel]
          obtain ⟨ho, hn⟩ := ih i j2 (by omega) hi (by omega)
          constructor
          · rw [show oldProj (backtrack a b f i j2 ++ [⟨.ins, b.getD j2 []⟩]) =
                oldProj (backtrack a b f i j2) from by
              simp [oldProj, List.filter_append, DiffType.isIns], ho]
          · rw [show newProj (backtrack a b f i j2 ++ [⟨.ins, b.getD j2 []⟩]) =
                newProj (backtrack a b f i j2) ++ [b.getD j2 []] from by
              simp [newProj, List.filter_append, DiffType.isDel], hn,
              ← take_succ_getD b j2 (by omega)]
        · rw [if_neg h2]
          have hi0 : 0 < i := by
            rcases Nat.eq_zero_or_pos i with hz | hp
            · exfalso
              have hj0 : j ≠ 0 := fun hjz => h0 ⟨hz, hjz⟩
              exact h2 ⟨Nat.pos_of_ne_zero hj0, Or.inl hz⟩
            · exact hp
          obtain ⟨i2, rfl⟩ : ∃ i2, i = i2 + 1 := ⟨i - 1, by omega⟩
          simp only [Nat.add_sub_cancel]
          obtain ⟨ho, hn⟩ := ih i2 j (by omega) (by omega) hj
          constructor
          · rw [show oldProj (backtrack a b f i2 j ++ [⟨.del, a.getD i2 []⟩]) =
                oldProj (backtrack a b f i2 j) ++ [a.getD i2 []] from by
              simp [oldProj, List.filter_append, DiffType.isIns], ho,
              ← take_succ_getD a i2 (by omega)]
          · rw [show newProj (backtrack a b f i2 j ++ [⟨.del, a.getD i2 []⟩]) =
                newProj (backtrack a b f i2 j) from by
              simp [newProj, List.filter_append, DiffType.isDel], hn]

/-- Within the non-wrapping regime the backtrack emits exactly
prefix-LCS-many `eq` entries. -/
theorem backtrack_eqCount (a b : List Tok) :
    ∀ f i j, i + j ≤ f → i ≤ a.length → j ≤ b.length → min i j ≤ 65535 →
      eqCount (backtrack a b f i j) = lcsPre a b i j := by
  intro f
  induction f with
  | zero =>
    intro i j h _ _ _
    have hi0 : i = 0 := by omega
    have hj0 : j = 0 := by omega
    subst hi0
    subst hj0
    rw [lcsPre_zero_left]
    simp [backtrack, eqCount]
  | succ f ih =>
    intro i j h hi hj hm
    rw [backtrack_succ]
    by_cases h0 : i = 0 ∧ j = 0
    · obtain ⟨rfl, rfl⟩ := h0
      rw [if_pos ⟨rfl, rfl⟩, lcsPre_zero_left]
      simp [eqCount]
    · rw [if_neg h0]
      by_cases h1 : 0 < i ∧ 0 < j ∧ a.getD (i - 1) [] = b.getD (j - 1) []
      · obtain ⟨hi0, hj0, heq⟩ := h1
        rw [if_pos ⟨hi0, hj0, heq⟩]
        obtain ⟨i2, rfl⟩ : ∃ i2, i = i2 + 1 := ⟨i - 1, by omega⟩
        obtain ⟨j2, rfl⟩ : ∃ j2, j = j2 + 1 := ⟨j - 1, by omega⟩
        simp only [Nat.add_sub_cancel] at heq ⊢
        rw [show eqCount (backtrack a b f i2 j2 ++ [⟨.eq, a.getD i2 []⟩]) =
            eqCount (backtrack a b f i2 j2) + 1 from by
          simp [eqCount, List.filter_append, DiffType.isEq],
          ih i2 j2 (by omega) (by omega) (by omega) (by omega),
          lcsPre_succ_succ a b i2 j2 (by omega) (by omega), if_pos heq]
      · rw [if_neg h1]
        by_cases h2 : 0 < j ∧ (i = 0 ∨ dp a b (i - 1) j ≤ dp a b i (j - 1))
        · obtain ⟨hj0, hcond⟩ := h2
          rw [if_pos ⟨hj0, hcond⟩]
          obtain ⟨j2, rfl⟩ : ∃ j2, j = j2 + 1 := ⟨j - 1, by omega⟩
          simp only [Nat.add_sub_cancel] at h1 hcond ⊢
          rw [show eqCount (backtrack a b f i j2 ++ [⟨.ins, b.getD j2 []⟩]) =
              eqCount (backtrack a b f i j2) from by
            simp [eqCount, List.filter_append, DiffType.isEq],
            ih i j2 (by omega) hi (by omega) (by omega)]
          cases i with
          | zero => rw [lcsPre_zero_left, lcsPre_zero_left]
          | succ i2 =>
            have hne2 : a.getD i2 [] ≠ b.getD j2 [] := by
              intro hcontra
              exact h1 ⟨Nat.succ_pos i2, Nat.succ_pos j2, hcontra⟩
            have hle : dp a b i2 (j2 + 1) ≤ dp a b (i2 + 1) j2 := by
              rcases hcond with h00 | hle
              · exact absurd h00 (Nat.succ_ne_zero i2)
              · exact hle
            have hlel : lcsPre a b i2 (j2 + 1) ≤ lcsPre a b (i2 + 1) j2 := by
              rw [← dp_eq_lcsPre a b i2 (j2 + 1) (by omega) hj (by omega),
                ← dp_eq_lcsPre a b (i2 + 1) j2 hi (by omega) (by omega)]
              exact hle
            rw [lcsPre_succ_succ a b i2 j2 (by omega) (by omega), if_neg hne2,
              max_eq_left hlel]
        · rw [if_neg h2]
          have hi0 : 0 < i := by
            rcases Nat.eq_zero_or_pos i with hz | hp
            · exfalso
              have hj0 : j ≠ 0 := fun hjz => h0 ⟨hz, hjz⟩
              exact h2 ⟨Nat.pos_of_ne_zero hj0, Or.inl hz⟩
            · exact hp
          obtain ⟨i2, rfl⟩ : ∃ i2, i = i2 + 1 := ⟨i - 1, by omega⟩
          simp only [Nat.add_sub_cancel] at h1 h2 ⊢
          rw [show eqCount (backtrack a b f i2 j ++ [⟨.del, a.getD i2 []⟩]) =
              eqCount (backtrack a b f i2 j) from by
            simp [eqCount, List.filter_append, DiffType.isEq],
            ih i2 j (by omega) (by omega) hj (by omega)]
          cases j with
          | zero => rw [lcsPre_zero_right, lcsPre_zero_right]
          | succ j2 =>
            have hne2 : a.getD i2 [] ≠ b.getD j2 [] := by
              intro hcontra
              exact h1 ⟨Nat.succ_pos i2, Nat.succ_pos j2, hcontra⟩
            have hlt : dp a b (i2 + 1) j2 < dp a b i2 (j2 + 1) := by
              by_contra hle2
              push_neg at hle2
              exact h2 ⟨Nat.succ_pos j2, Or.inr hle2⟩
            have hltl : lcsPre a b (i2 + 1) j2 < lcsPre a b i2 (j2 + 1) := by
              rw [← dp_eq_lcsPre a b i2 (j2 + 1) (by omega) hj (by omega),
                ← dp_eq_lcsPre a b (i2 + 1) j2 hi (by omega) (by omega)]
              exact hlt
            rw [lcsPre_succ_succ a b i2 j2 (by omega) (by omega), if_neg hne2,
              max_eq_right (le_of_lt hltl)]

/-- The unchanged tokens form a subsequence of the old-side projection. -/
theorem eqTokens_sublist_oldProj (l : List DiffEntry) :
    (eqTokens l).Sublist (oldProj l) := by
  have hee : l.filter (fun e => e.type.isEq) =
      (l.filter (fun e => !e.type.isIns)).filter (fun e => e.type.isEq) := by
    rw [List.filter_filter]
    apply List.filter_congr
    intro e _
    obtain ⟨t, txt⟩ := e
    cases t <;> rfl
  unfold eqTokens oldProj
  rw [hee]
  exact List.Sublist.map _ (List.filter_sublist _)

/-- The unchanged tokens form a subsequence of the new-side projection. -/
theorem eqTokens_sublist_newProj (l : List DiffEntry) :
    (eqTokens l).Sublist (newProj l) := by
  have hee : l.filter (fun e => e.type.isEq) =
      (l.filter (fun e => !e.type.isDel)).filter (fun e => e.type.isEq) := by
    rw [List.filter_filter]
    apply List.filter_congr
    intro e _
    obtain ⟨t, txt⟩ := e
    cases t <;> rfl
  unfold eqTokens newProj
  rw [hee]
  exact List.Sublist.map _ (List.filter_sublist _)

/-- C2: `wordDiff` is a faithful interleaving — the `eq`/`del` entries spell
out the old token sequence, the `eq`/`ins` entries spell out the new one, and
the `eq` entries form a common subsequence of maximal length (the length of a
longest common subsequence); sizes are bounded by the code's `Uint16Array`
table, which never wraps below 65536 tokens. -/
theorem wordDiff_faithful (A B : List Char)
    (h : min (wsTokens A).length (wsTokens B).length ≤ 65535) :
    oldProj (wordDiff A B) = wsTokens A ∧
    newProj (wordDiff A B) = wsTokens B ∧
    (eqTokens (wordDiff A B)).length = eqCount (wordDiff A B) ∧
    (eqTokens (wordDiff A B)).Sublist (wsTokens A) ∧
    (eqTokens (wordDiff A B)).Sublist (wsTokens B) ∧
    (∀ s : List Tok, s.Sublist (wsTokens A) → s.Sublist (wsTokens B) →
      s.length ≤ eqCount (wordDiff A B)) := by
  have hw : wordDiff A B =
      backtrack (wsTokens A) (wsTokens B)
        ((wsTokens A).length + (wsTokens B).length)
        (wsTokens A).length (wsTokens B).length := rfl
  obtain ⟨ho, hn⟩ := backtrack_proj (wsTokens A) (wsTokens B)
    ((wsTokens A).length + (wsTokens B).length)
    (wsTokens A).length (wsTokens B).length le_rfl le_rfl le_rfl
  rw [List.take_length] at ho
  rw [List.take_length] at hn
  have hcount := backtrack_eqCount (wsTokens A) (wsTokens B)
    ((wsTokens A).length + (wsTokens B).length)
    (wsTokens A).length (wsTokens B).length le_rfl le_rfl le_rfl h
  rw [← hw] at ho hn hcount
  have hlcs : lcsPre (wsTokens A) (wsTokens B) (wsTokens A).length (wsTokens B).length =
      lcsLen (wsTokens A).reverse (wsTokens B).reverse := by
    unfold lcsPre
    rw [List.take_length, List.take_length]
  refine ⟨ho, hn, by simp [eqTokens, eqCount], ?_, ?_, ?_⟩
  · have hs := eqTokens_sublist_oldProj (wordDiff A B)
    rw [ho] at hs
    exact hs
  · have hs := eqTokens_sublist_newProj (wordDiff A B)
    rw [hn] at hs
    exact hs
  · intro s hsA hsB
    have hb := length_le_lcsLen (wsTokens A).reverse (wsTokens B).reverse s.reverse
      (List.reverse_sublist.mpr hsA) (List.reverse_sublist.mpr hsB)
    rw [List.length_reverse] at hb
    rw [hcount, hlcs]
    exact hb

/-- Witness for `wordDiff_faithful` on the texts `x y` and `y z`. -/
theorem wordDiff_faithful_witness :
    min (wsTokens "x y".data).length (wsTokens "y z".data).length ≤ 65535 ∧
    (oldProj (wordDiff "x y".data "y z".data) = wsTokens "x y".data ∧
     newProj (wordDiff "x y".data "y z".data) = wsTokens "y z".data ∧
     (eqTokens (wordDiff "x y".data "y z".data)).length =
       eqCount (wordDiff "x y".data "y z".data) ∧
     (eqTokens (wordDiff "x y".data "y z".data)).Sublist (wsTokens "x y".data) ∧
     (eqTokens (wordDiff "x y".data "y z".data)).Sublist (wsTokens "y z".data) ∧
     (∀ s : List Tok, s.Sublist (wsTokens "x y".data) →
        s.Sublist (wsTokens "y z".data) →
        s.length ≤ eqCount (wordDiff "x y".data "y z".data))) :=
  ⟨by decide, wordDiff_faithful "x y".data "y z".data (by decide)⟩

/-- Membership in the folded key-collection of `formatRefsCompact`. -/
theorem mem_foldl_addKey (refs : List Ref) : ∀ (acc : List String) (k : String),
    (k ∈ refs.foldl (fun a r => addKey a (r.law_prefix.getD "")) acc ↔
      k ∈ acc ∨ ∃ r ∈ refs, r.law_prefix.getD "" = k) := by
  induction refs with
  | nil => intro acc k; simp
  | cons r rs ih =>
    intro acc k
    rw [List.foldl_cons, ih]
    have haddmem : k ∈ addKey acc (r.law_prefix.getD "") ↔
        k ∈ acc ∨ k = r.law_prefix.getD "" := by
      unfold addKey
      split_ifs with hcont
      · constructor
        · exact Or.inl
        · rintro (h | rfl)
          · exact h
          · exact List.elem_iff.mp hcont
      · simp [List.mem_append]
    rw [haddmem]
    simp only [List.exists_mem_cons_iff]
    constructor
    · rintro ((h | rfl) | ⟨r2, hr2, he⟩)
      · exact Or.inl h
      · exact Or.inr (Or.inl rfl)
      · exact Or.inr (Or.inr ⟨r2, hr2, he⟩)
    · rintro (h | (rfl | ⟨r2, hr2, he⟩))
      · exact Or.inl (Or.inl h)
      · exact Or.inl (Or.inr rfl)
      · exact Or.inr ⟨r2, hr2, he⟩

/-- Every ref carrying a (non-empty) detail produces its own display part.  -/
theorem detailPart_mem (refs : List Ref) (r : Ref) (hr : r ∈ refs)
    (hd : refHasDetail r = true) :
    detailPart (lawPreOf r) r ∈ formatParts refs := by
  have hk : r.law_prefix.getD "" ∈ groupKeys refs := by
    unfold groupKeys
    rw [mem_foldl_addKey]
    exact Or.inr ⟨r, hr, rfl⟩
  unfold formatParts
  rw [List.mem_flatten]
  refine ⟨_, List.mem_map.mpr ⟨r.law_prefix.getD "", hk, rfl⟩, ?_⟩
  rw [List.mem_append]
  right
  apply List.mem_map.mpr
  refine ⟨r, ?_, ?_⟩
  · exact List.mem_filter.mpr ⟨List.mem_filter.mpr ⟨hr, by simp⟩, hd⟩
  · rfl

/-- C5 counterexample: the article list `[10, 11, 12, 14]` (no details)
compacts to `"arts. 10 – 12; art. 14"` — the range comes first, not the
claimed `"art. 14; arts. 10 – 12"`. -/
theorem formatRefsCompact_order_counterexample :
    formatRefsCompact exRefs = "arts. 10 – 12; art. 14" ∧
    "arts. 10 – 12; art. 14" ≠ "art. 14; arts. 10 – 12" :=
  ⟨by decide, by decide⟩

/-- C5 (amended): refs are grouped by law prefix; among detail-less refs
(sorted numerically) every maximal run of ≥ 3 consecutive numbers becomes one
range part and a run of exactly 2 becomes two singles; refs with a detail are
always emitted individually; the list `[10, 11, 12, 14]` (no details)
compacts to the display string `"arts. 10 – 12; art. 14"` (range part first,
isolated article last). -/
theorem formatRefsCompact_spec :
    formatRefsCompact exRefs = "arts. 10 – 12; art. 14" ∧
    (∀ (p : String) (n : Int) (c rest : List Ref), c ≠ [] →
      (∀ k (hk : k < c.length), jsParseInt (c.get ⟨k, hk⟩).art = some (n + k)) →
      (∀ r, rest.head? = some r → jsParseInt r.art ≠ some (n + c.length)) →
      compactPlain p (c ++ rest) =
        (if 3 ≤ c.length then
          [p ++ "arts. " ++ toString n ++ " – " ++ toString (n + c.length - 1)]
        else if c.length = 2 then
          [p ++ "art. " ++ toString n, p ++ "art. " ++ toString (n + 1)]
        else [p ++ "art. " ++ toString n]) ++ compactPlain p rest) ∧
    (∀ (refs : List Ref) (r : Ref), r ∈ refs → refHasDetail r = true →
      detailPart (lawPreOf r) r ∈ formatParts refs) :=
  ⟨by decide, compactLoop_chain, detailPart_mem⟩

/-- Witness for `formatRefsCompact_spec` on the chain `10, 11, 12` followed
by the isolated `14`. -/
theorem formatRefsCompact_spec_witness :
    ((exRefsChain ≠ []) ∧
     (∀ k (hk : k < exRefsChain.length),
        jsParseInt (exRefsChain.get ⟨k, hk⟩).art = some (10 + k))) ∧
    compactPlain "" (exRefsChain ++ exRefTail) =
      (if 3 ≤ exRefsChain.length then
        ["" ++ "arts. " ++ toString (10 : Int) ++ " – " ++
          toString ((10 : Int) + exRefsChain.length - 1)]
      else if exRefsChain.length = 2 then
        ["" ++ "art. " ++ toString (10 : Int), "" ++ "art. " ++ toString ((10 : Int) + 1)]
      else ["" ++ "art. " ++ toString (10 : Int)]) ++ compactPlain "" exRefTail :=
  ⟨⟨by decide, by decide⟩,
    formatRefsCompact_spec.2.1 "" 10 exRefsChain exRefTail (by decide) (by decide)
      (by
        intro r hr
        simp only [exRefTail, List.head?_cons, Option.some_inj] at hr
        subst hr
        decide)⟩

end Regimento

